import Mathlib

/-!
Shallow embedding of the content-ingestion pipeline core
(tasks/base.py, tasks/helper_classes/metadata_tracker.py,
tasks/helper_classes/ingestion_item.py, tasks/helper_classes/vector_store.py,
and the connector key sanitizers in tasks/s3_ingestion.py and
tasks/directory_ingestion.py), together with proofs about the
claims on its behaviour.

Conventions of the embedding:
* Python strings are Lean String; datetime values are carried as their
  string rendering (process_item only ever stores str(last_modified)).
* The MD5 digest (hashlib.md5(...).hexdigest()) is an external library
  call; the pipeline logic is parametric in it, so the embedding takes
  a hash function as an explicit parameter.
* Database and sink calls (MetadataTracker.get_latest_record,
  MetadataTracker.record_metadata, MetadataTracker.delete_previous_embeddings,
  VectorStoreManager.insert_documents) act on an explicit PState value; each
  call either fully applies its effect or raises without any effect,
  matching the per-call transactional scope of the tracker (each method
  opens its own get_db_session context) and of the sink.
* A Python exception is an Except.error carrying the error text and the
  state as mutated so far (in-memory mutations such as the seen-set
  survive an exception; per-call DB effects do not partially apply).
* Connector behaviour (the abstract methods get_raw_content, get_item_name,
  get_extra_metadata, plus which infrastructure calls raise) is a
  StepBehavior record, one per processed item.
-/

namespace Ingestion

/-- Metadata values as used by process_item: strings and the integer
version field. -/
inductive MetaVal where
  | str : String → MetaVal
  | nat : Nat → MetaVal
deriving DecidableEq, Repr

/-- A metadata dictionary, modelled as an association list in insertion
order (Python dict preserves insertion order; assignment updates in
place). -/
abbrev Meta := List (String × MetaVal)

/-- Python "not raw_content.strip()": a string strips to empty exactly
when every character is whitespace. -/
def isBlank (s : String) : Bool := s.data.all (fun c => c.isWhitespace)

/-- Python dict lookup d[k] / d.get(k): first entry with the key. -/
def lookupKV : Meta → String → Option MetaVal
  | [], _ => none
  | p :: rest, k => if p.1 == k then some p.2 else lookupKV rest k

/-- Python dict assignment d[k] = v: update the existing entry in place,
or append a new one. -/
def setKV (m : Meta) (k : String) (v : MetaVal) : Meta :=
  if m.any (fun p => p.1 == k) then
    m.map (fun p => if p.1 == k then (k, v) else p)
  else m ++ [(k, v)]

/-- RESERVED_METADATA_KEYS from tasks/base.py: keys that process_item
sets and that get_extra_metadata must not overwrite. -/
def RESERVED_METADATA_KEYS : List String :=
  ["source", "key", "checksum", "version", "format",
   "source_name", "file_name", "last_modified"]

/-- The merge loop of process_item:
for k, v in extra.items(): if k not in RESERVED_METADATA_KEYS: metadata[k] = v. -/
def mergeExtra (m : Meta) (extra : Meta) : Meta :=
  extra.foldl
    (fun acc p =>
      if RESERVED_METADATA_KEYS.contains p.1 then acc else setKV acc p.1 p.2)
    m

/-- One row of the persistent metadata ledger (models.metadata.MetaData,
restricted to the columns the pipeline logic reads and writes). -/
structure LedgerRow where
  key : String
  checksum : String
  version : Nat
  lastModified : String
deriving DecidableEq, Repr

/-- A document handed to the sink (llama_index Document: text plus a
metadata map). -/
structure Doc where
  text : String
  metadata : Meta
deriving DecidableEq, Repr

/-- The generated key_text column of models.embedding.DataEmbeddings:
metadata_ ->> 'key' (none models SQL NULL when the key is absent). -/
def keyText (d : Doc) : Option String :=
  match lookupKV d.metadata "key" with
  | some (MetaVal.str s) => some s
  | some (MetaVal.nat n) => some (toString n)
  | none => none

/-- Calls made against the tracker and the sink, recorded in order. -/
inductive TrackerEvent where
  | getLatest : String → TrackerEvent
  | deletePrev : String → TrackerEvent
  | insertDoc : Doc → TrackerEvent
  | record : String → String → Nat → TrackerEvent
deriving DecidableEq, Repr

/-- The state process_item acts on: the run-local seen-set (in recency
order, head = least recently touched), the persistent ledger, the
content store, and the trace of tracker and sink calls. -/
structure PState where
  seen : List String
  ledger : List LedgerRow
  store : List Doc
  events : List TrackerEvent
deriving DecidableEq, Repr

/-- The empty initial state: fresh seen-set, empty ledger and store. -/
def initState : PState := ⟨[], [], [], []⟩

/-- The fixed seen-set capacity from IngestionJob.__init__
(self._seen_capacity = 10000). -/
def SEEN_CAPACITY : Nat := 10000

/-- IngestionJob._seen_add on an OrderedDict, with the capacity as an
explicit parameter: if the checksum is present, move_to_end and return
False; otherwise insert at the most-recent end and, past capacity, pop
the least-recent entry. Returns (result, new seen-set). -/
def seenAdd (cap : Nat) (seen : List String) (c : String) : Bool × List String :=
  if c ∈ seen then
    (false, seen.erase c ++ [c])
  else if (seen ++ [c]).length > cap then
    (true, (seen ++ [c]).drop 1)
  else
    (true, seen ++ [c])

/-- MetadataTracker.get_latest_record: among the ledger rows for the key,
the first one of maximal version (order_by version desc, first()). -/
def betterRow (a : Option LedgerRow) (r : LedgerRow) : Option LedgerRow :=
  match a with
  | none => some r
  | some b => if r.version > b.version then some r else some b

/-- Look up the latest ledger row for a key. -/
def getLatestRecord (ledger : List LedgerRow) (k : String) : Option LedgerRow :=
  (ledger.filter (fun r => r.key == k)).foldl betterRow none

/-- MetadataTracker.delete_previous_embeddings: delete from DataEmbeddings
where key_text == key. -/
def deletePreviousEmbeddings (store : List Doc) (k : String) : List Doc :=
  store.filter (fun d => !(keyText d == some k))

/-- The documents currently indexed in the content store for a key (the
rows of DataEmbeddings with key_text equal to the key). -/
def storeDocsFor (store : List Doc) (k : String) : List Doc :=
  store.filter (fun d => keyText d == some k)

/-- The connector-facing configuration of a job: source_type property and
config name (self.source_name). -/
structure JobConfig where
  sourceType : String
  sourceName : String
deriving Repr

/-- The behaviour of the connector hooks and infrastructure calls for one
item: results of get_raw_content and get_item_name (either a value or a
raised exception), the item's last_modified rendering, the
get_extra_metadata result, and whether each tracker or sink call raises. -/
structure StepBehavior where
  rawContent : Except String String
  itemName : Except String String
  lastModified : String
  extraMeta : Except String Meta
  getLatestRaises : Bool
  deleteRaises : Bool
  insertRaises : Bool
  recordRaises : Bool
deriving Repr

/-- The standard metadata dict literal built by process_item. -/
def standardMetadata (job : JobConfig) (itemName checksum : String)
    (version : Nat) (lastModified : String) : Meta :=
  [("source", MetaVal.str job.sourceType),
   ("key", MetaVal.str itemName),
   ("checksum", MetaVal.str checksum),
   ("version", MetaVal.nat version),
   ("format", MetaVal.str "markdown"),
   ("source_name", MetaVal.str job.sourceName),
   ("file_name", MetaVal.str itemName),
   ("last_modified", MetaVal.str lastModified)]

/-- The tail of process_item after the version check: metadata build,
extra-metadata merge, document construction, sink insert, ledger record. -/
def processItemFinish (job : JobConfig) (beh : StepBehavior) (st : PState)
    (raw c name : String) (version : Nat) :
    Except (String × PState) (Nat × PState) :=
  let meta0 := standardMetadata job name c version beh.lastModified
  match beh.extraMeta with
  | Except.error e => Except.error (e, st)
  | Except.ok extra =>
    let meta := mergeExtra meta0 extra
    let doc : Doc := { text := raw, metadata := meta }
    let st1 := { st with events := st.events ++ [TrackerEvent.insertDoc doc] }
    if beh.insertRaises then Except.error ("insert_documents", st1)
    else
      let st2 := { st1 with store := st1.store ++ [doc] }
      let st3 := { st2 with events := st2.events ++ [TrackerEvent.record name c version] }
      if beh.recordRaises then Except.error ("record_metadata", st3)
      else
        let row : LedgerRow :=
          { key := name, checksum := c, version := version,
            lastModified := beh.lastModified }
        Except.ok (1, { st3 with ledger := st3.ledger ++ [row] })

/-- The body of IngestionJob.process_item (the try block): fetch, blank
check, hash, run-local dedup, name, version check, optional delete of
previous embeddings, metadata build and merge, sink insert, ledger
record. An Except.error is a raised exception carrying the state as
mutated so far. -/
def processItemBody (job : JobConfig) (hash : String → String)
    (beh : StepBehavior) (st : PState) :
    Except (String × PState) (Nat × PState) :=
  match beh.rawContent with
  | Except.error e => Except.error (e, st)
  | Except.ok raw =>
    if isBlank raw then Except.ok (0, st)
    else
      let c := hash raw
      let p := seenAdd SEEN_CAPACITY st.seen c
      let st1 := { st with seen := p.2 }
      if !p.1 then Except.ok (0, st1)
      else
        match beh.itemName with
        | Except.error e => Except.error (e, st1)
        | Except.ok name =>
          let st2 := { st1 with events := st1.events ++ [TrackerEvent.getLatest name] }
          if beh.getLatestRaises then Except.error ("get_latest_record", st2)
          else
            match getLatestRecord st2.ledger name with
            | some l =>
              if l.checksum == c then Except.ok (0, st2)
              else
                let st3 := { st2 with events := st2.events ++ [TrackerEvent.deletePrev name] }
                if beh.deleteRaises then Except.error ("delete_previous_embeddings", st3)
                else
                  let st4 := { st3 with store := deletePreviousEmbeddings st3.store name }
                  processItemFinish job beh st4 raw c name (l.version + 1)
            | none => processItemFinish job beh st2 raw c name 1

/-- IngestionJob.process_item: the body wrapped in the broad except
clause that logs and returns 0, keeping the state as mutated so far. -/
def processItem (job : JobConfig) (hash : String → String)
    (beh : StepBehavior) (st : PState) : Nat × PState :=
  match processItemBody job hash beh st with
  | Except.ok r => r
  | Except.error (_, st') => (0, st')

/-- The success summary string of IngestionJob.run. -/
def successMsg (job : JobConfig) (total skipped : Nat) : String :=
  "[" ++ job.sourceName ++ "] Completed: " ++ toString total ++
    " ingested, " ++ toString skipped ++ " skipped"

/-- The failure message of IngestionJob.run: the error message followed by
the partial totals. -/
def failMsg (job : JobConfig) (e : String) (total skipped : Nat) : String :=
  "[" ++ job.sourceName ++ "] Job failed: " ++ e ++
    ". Partial results: " ++ toString total ++ " ingested, " ++
    toString skipped ++ " skipped"

/-- The iteration of IngestionJob.run over the lazy item sequence: each
pull either yields an item behaviour or raises (ending the run with the
failure message); process_item is applied to each yielded item and the
counters are updated (count 0 increments skipped, otherwise total). -/
def runLoop (job : JobConfig) (hash : String → String) :
    List (Except String StepBehavior) → PState → Nat → Nat → String × PState
  | [], st, total, skipped => (successMsg job total skipped, st)
  | Except.error e :: _, st, total, skipped => (failMsg job e total skipped, st)
  | Except.ok beh :: rest, st, total, skipped =>
    let r := processItem job hash beh st
    if r.1 = 0 then runLoop job hash rest r.2 total (skipped + 1)
    else runLoop job hash rest r.2 (total + r.1) skipped

/-- IngestionJob.run: iterate the source's pulls from zero counters. -/
def runJob (job : JobConfig) (hash : String → String)
    (pulls : List (Except String StepBehavior)) (st : PState) : String × PState :=
  runLoop job hash pulls st 0 0

/-- Reference fold for the totals of a run whose discovery sequence does
not raise: final state, ingested count, skipped count. -/
def processAll (job : JobConfig) (hash : String → String) :
    List StepBehavior → PState → Nat → Nat → PState × Nat × Nat
  | [], st, total, skipped => (st, total, skipped)
  | beh :: rest, st, total, skipped =>
    let r := processItem job hash beh st
    if r.1 = 0 then processAll job hash rest r.2 total (skipped + 1)
    else processAll job hash rest r.2 (total + r.1) skipped

/-- A character matched by the class [ \\/] of the first substitution in
the sanitizers: space, backslash, forward slash. -/
def isSepChar (c : Char) : Bool :=
  c == ' ' || c == '\\' || c == '/'

/-- A character kept by the second substitution (the complement of the
class [^a-zA-Z0-9\-_\.]). -/
def isAllowedChar (c : Char) : Bool :=
  (97 ≤ c.toNat && c.toNat ≤ 122) ||
  (65 ≤ c.toNat && c.toNat ≤ 90) ||
  (48 ≤ c.toNat && c.toNat ≤ 57) ||
  c == '-' || c == '_' || c == '.'

/-- re.sub of the pattern [ \\/]+ by a single underscore: the Bool flag
records whether the previous character was in the class (inside a run). -/
def collapseSepsAux : Bool → List Char → List Char
  | _, [] => []
  | inRun, c :: rest =>
    if isSepChar c then
      if inRun then collapseSepsAux true rest
      else '_' :: collapseSepsAux true rest
    else c :: collapseSepsAux false rest

/-- Replace every maximal run of space, backslash or slash characters by
one underscore. -/
def collapseSeps (l : List Char) : List Char :=
  collapseSepsAux false l

/-- The composite of unicodedata.normalize("NFKD", s) and
encode("ascii", "ignore").decode("ascii"), modelled on the code-point
level: NFKD is the identity on the ASCII subset and the ascii-ignore
encode drops every code point above 127, so on ASCII input the composite
is exact (the NFKD decomposition of non-ASCII characters, an external
unicodedata table, is not modelled). -/
def asciiIgnore (s : String) : String :=
  String.mk (s.data.filter (fun c => c.toNat ≤ 127))

/-- S3IngestionJob.sanitize_s3_key: NFKD-normalize and drop non-ASCII,
collapse runs of space, backslash and slash to one underscore, remove
every remaining disallowed character, truncate to 255 characters. -/
def sanitize_s3_key (key : String) : String :=
  let k1 := asciiIgnore key
  let k2 := String.mk (collapseSeps k1.data)
  let k3 := String.mk (k2.data.filter isAllowedChar)
  String.mk (k3.data.take 255)

/-- DirectoryIngestionJob.sanitize_path: textually the same pipeline as
sanitize_s3_key, applied to the item's relative path. -/
def sanitize_path (path : String) : String :=
  let p1 := asciiIgnore path
  let p2 := String.mk (collapseSeps p1.data)
  let p3 := String.mk (p2.data.filter isAllowedChar)
  String.mk (p3.data.take 255)

/-- The spec's ledger/store invariant, as claimed: for every key with at
least one ledger row, the store holds exactly one document for that key
and its content hashes to the latest row's checksum (all earlier
versions' content deleted). -/
def ledgerStoreClaimInvariant (hash : String → String) (st : PState) : Prop :=
  ∀ k l, getLatestRecord st.ledger k = some l →
    ∃ d, storeDocsFor st.store k = [d] ∧ hash d.text = l.checksum

/-- Strengthened, inductive form of the invariant: additionally, a key
with no ledger row has nothing in the store. -/
def ledgerStoreInvariant (hash : String → String) (st : PState) : Prop :=
  ∀ k,
    match getLatestRecord st.ledger k with
    | some l => ∃ d, storeDocsFor st.store k = [d] ∧ hash d.text = l.checksum
    | none => storeDocsFor st.store k = []

/-- An item behaviour whose sink insert and ledger record succeed when
reached (the connector hooks and the read-only calls may still raise). -/
def sinkCommitsWhenReached (beh : StepBehavior) : Prop :=
  (∃ extra, beh.extraMeta = Except.ok extra) ∧
    beh.insertRaises = false ∧ beh.recordRaises = false

/-- Fold process_item over a sequence of items, keeping the state (the
state seen between any two operations of one or more runs). -/
def applyItems (job : JobConfig) (hash : String → String)
    (behs : List StepBehavior) (st : PState) : PState :=
  behs.foldl (fun s b => (processItem job hash b s).2) st

/-! Concrete inputs used to witness the theorems and exercise the
counterexamples. -/

/-- A concrete job configuration. -/
def cJob : JobConfig := ⟨"s3", "docs"⟩

/-- A concrete stand-in for the externally supplied content hash
(hashlib.md5 hexdigest); the pipeline logic is parametric in it. -/
def cHash : String → String := fun s => s

/-- An item whose content fetch raises. -/
def cFetchFailBeh : StepBehavior :=
  ⟨Except.error "boom", Except.error "boom", "t", Except.ok [],
    false, false, false, false⟩

/-- An item that ingests the text x under key k with no extra metadata. -/
def c3BehA : StepBehavior :=
  ⟨Except.ok "x", Except.ok "k", "t0", Except.ok [], false, false, false, false⟩

/-- An update of key k to the text y whose sink insert raises. -/
def c3BehB : StepBehavior :=
  ⟨Except.ok "y", Except.ok "k", "t1", Except.ok [], false, false, true, false⟩

/-- The state after ingesting x under k and then failing the sink insert
of the update to y: the previous embeddings were already deleted. -/
def c3FailState : PState := applyItems cJob cHash [c3BehA, c3BehB] initState

/-- A second-version ledger for the update scenario of the version check. -/
def c2St : PState :=
  ⟨[], [⟨"k", "old", 2, "t0"⟩],
    [⟨"old", [("key", MetaVal.str "k")]⟩], []⟩

/-- An item carrying changed content for key k with one extra metadata
entry. -/
def c2Beh : StepBehavior :=
  ⟨Except.ok "new", Except.ok "k", "t1",
    Except.ok [("url", MetaVal.str "http")], false, false, false, false⟩

/-- An item behaving like the MediaWiki connector does at the base
pipeline: no get_extra_metadata override, so the extra metadata is the
base default empty dict. -/
def c9Beh : StepBehavior :=
  ⟨Except.ok "page text", Except.ok "Test_Page", "t1", Except.ok [],
    false, false, false, false⟩

/-- An item that ingests content under key k1 and succeeds. -/
def cOkBeh : StepBehavior :=
  ⟨Except.ok "hello", Except.ok "k1", "t", Except.ok [], false, false,
    false, false⟩

/-- An item whose sink insert raises, used after the dedup step has
recorded the checksum. -/
def c10Beh : StepBehavior :=
  ⟨Except.ok "shared content", Except.ok "k1", "t", Except.ok [], false,
    false, true, false⟩

/-- A later item of the same run with byte-identical content under a
different key. -/
def c10BehLater : StepBehavior :=
  ⟨Except.ok "shared content", Except.ok "k2", "t2", Except.ok [], false,
    false, false, false⟩

/-- A checksum family injective by construction: n maps to the string of
n copies of the letter a. -/
def repChar (n : Nat) : String := String.mk (List.replicate n 'a')

/-- n pairwise distinct checksum strings. -/
def distinctChecksums (n : Nat) : List String := (List.range n).map repChar

end Ingestion

namespace Ingestion

/-! Helper lemmas about the metadata dictionary operations. -/

theorem lookupKV_append (m1 m2 : Meta) (k : String) :
    lookupKV (m1 ++ m2) k =
      match lookupKV m1 k with
      | some v => some v
      | none => lookupKV m2 k := by
  induction m1 with
  | nil => rfl
  | cons p rest ih =>
    by_cases hp : (p.1 == k) = true
    · simp [lookupKV, hp]
    · simp [lookupKV, hp, ih]

theorem lookupKV_map_update_self (m : Meta) (k : String) (v : MetaVal)
    (h : m.any (fun p => p.1 == k) = true) :
    lookupKV (m.map (fun p => if p.1 == k then (k, v) else p)) k = some v := by
  induction m with
  | nil => simp at h
  | cons p rest ih =>
    simp only [List.any_cons, Bool.or_eq_true] at h
    simp only [List.map_cons]
    by_cases hp : (p.1 == k) = true
    · rw [if_pos hp]
      simp [lookupKV]
    · rw [if_neg hp]
      simp only [lookupKV]
      rw [if_neg hp]
      exact ih (h.resolve_left hp)

theorem lookupKV_map_update_ne (m : Meta) (k k' : String) (v : MetaVal)
    (hne : k' ≠ k) :
    lookupKV (m.map (fun p => if p.1 == k then (k, v) else p)) k' =
      lookupKV m k' := by
  induction m with
  | nil => rfl
  | cons p rest ih =>
    simp only [List.map_cons]
    by_cases hp : (p.1 == k) = true
    · rw [if_pos hp]
      have hpk : p.1 = k := by simpa using hp
      have hkk' : (k == k') = false := by
        simp only [beq_eq_false_iff_ne]
        exact fun h => hne h.symm
      simp only [lookupKV, hkk', hpk]
      simp only [Bool.false_eq_true, if_false]
      exact ih
    · rw [if_neg hp]
      simp only [lookupKV]
      by_cases hp' : (p.1 == k') = true
      · rw [if_pos hp', if_pos hp']
      · rw [if_neg hp', if_neg hp']
        exact ih

theorem lookupKV_eq_none_of_not_any (m : Meta) (k : String)
    (h : m.any (fun p => p.1 == k) = false) :
    lookupKV m k = none := by
  induction m with
  | nil => rfl
  | cons p rest ih =>
    simp only [List.any_cons, Bool.or_eq_false_iff] at h
    simp [lookupKV, h.1, ih h.2]

theorem lookupKV_setKV_self (m : Meta) (k : String) (v : MetaVal) :
    lookupKV (setKV m k v) k = some v := by
  unfold setKV
  split
  · exact lookupKV_map_update_self m k v (by assumption)
  · rename_i h
    rw [Bool.not_eq_true] at h
    rw [lookupKV_append, lookupKV_eq_none_of_not_any m k h]
    simp [lookupKV]

theorem lookupKV_setKV_ne (m : Meta) (k k' : String) (v : MetaVal)
    (hne : k' ≠ k) :
    lookupKV (setKV m k v) k' = lookupKV m k' := by
  unfold setKV
  split
  · exact lookupKV_map_update_ne m k k' v hne
  · rw [lookupKV_append]
    have hone : lookupKV [(k, v)] k' = none := by
      have hkk' : (k == k') = false := by
        simp only [beq_eq_false_iff_ne]
        exact fun h => hne h.symm
      simp [lookupKV, hkk']
    rw [hone]
    cases lookupKV m k' <;> rfl

theorem mergeExtra_cons (m : Meta) (p : String × MetaVal) (rest : Meta) :
    mergeExtra m (p :: rest) =
      mergeExtra
        (if RESERVED_METADATA_KEYS.contains p.1 then m else setKV m p.1 p.2)
        rest := by
  simp [mergeExtra]

theorem mergeExtra_lookup_of_not_key (extra m : Meta) (k : String)
    (h : ∀ p ∈ extra, p.1 ≠ k) :
    lookupKV (mergeExtra m extra) k = lookupKV m k := by
  induction extra generalizing m with
  | nil => rfl
  | cons p rest ih =>
    rw [mergeExtra_cons]
    have hrest : ∀ q ∈ rest, q.1 ≠ k := fun q hq => h q (List.mem_cons_of_mem p hq)
    rw [ih _ hrest]
    split
    · rfl
    · exact lookupKV_setKV_ne _ _ _ _ (fun hkk => h p (List.mem_cons_self p rest) hkk.symm)

theorem mergeExtra_lookup_reserved (extra m : Meta) (k : String)
    (hk : k ∈ RESERVED_METADATA_KEYS) :
    lookupKV (mergeExtra m extra) k = lookupKV m k := by
  induction extra generalizing m with
  | nil => rfl
  | cons p rest ih =>
    rw [mergeExtra_cons]
    rw [ih]
    split
    · rfl
    · rename_i hres
      refine lookupKV_setKV_ne _ _ _ _ ?_
      intro hkk
      exact hres (List.elem_iff.mpr (hkk ▸ hk))

theorem mergeExtra_lookup_mem (extra m : Meta) (k : String) (v : MetaVal)
    (hn : (extra.map Prod.fst).Nodup)
    (hmem : (k, v) ∈ extra)
    (hk : k ∉ RESERVED_METADATA_KEYS) :
    lookupKV (mergeExtra m extra) k = some v := by
  induction extra generalizing m with
  | nil => simp at hmem
  | cons p rest ih =>
    rw [mergeExtra_cons]
    rcases List.mem_cons.mp hmem with hhead | htail
    · subst hhead
      have hres : RESERVED_METADATA_KEYS.contains k = false := by
        rw [Bool.eq_false_iff]
        exact fun hc => hk (List.elem_iff.mp hc)
      simp only [hres]
      have hnotk : ∀ q ∈ rest, q.1 ≠ k := by
        intro q hq hqk
        simp only [List.map_cons, List.nodup_cons] at hn
        exact hn.1 (hqk ▸ List.mem_map_of_mem Prod.fst hq)
      simp only [Bool.false_eq_true, if_false]
      rw [mergeExtra_lookup_of_not_key rest _ k hnotk]
      exact lookupKV_setKV_self m k v
    · have hn' : (rest.map Prod.fst).Nodup := by
        simp only [List.map_cons, List.nodup_cons] at hn
        exact hn.2
      exact ih _ hn' htail

/-! Helper lemmas about the ledger and the content store. -/

theorem getLatestRecord_append_single (L : List LedgerRow) (r : LedgerRow)
    (k : String) :
    getLatestRecord (L ++ [r]) k =
      if r.key == k then betterRow (getLatestRecord L k) r
      else getLatestRecord L k := by
  unfold getLatestRecord
  rw [List.filter_append]
  by_cases h : (r.key == k) = true
  · simp only [h, if_pos]
    simp [List.filter, h, List.foldl_append]
  · simp only [h]
    simp [List.filter, h, List.foldl_append]

theorem storeDocsFor_append (s1 s2 : List Doc) (k : String) :
    storeDocsFor (s1 ++ s2) k = storeDocsFor s1 k ++ storeDocsFor s2 k := by
  unfold storeDocsFor
  exact List.filter_append _ _

theorem storeDocsFor_delete_self (store : List Doc) (k : String) :
    storeDocsFor (deletePreviousEmbeddings store k) k = [] := by
  unfold storeDocsFor deletePreviousEmbeddings
  rw [List.filter_filter]
  apply List.filter_eq_nil_iff.mpr
  intro d _
  cases h : (keyText d == some k) <;> simp [h]

theorem storeDocsFor_delete_ne (store : List Doc) (k k' : String)
    (h : k' ≠ k) :
    storeDocsFor (deletePreviousEmbeddings store k) k' =
      storeDocsFor store k' := by
  unfold storeDocsFor deletePreviousEmbeddings
  rw [List.filter_filter]
  apply List.filter_congr
  intro d _
  cases hd : (keyText d == some k') with
  | false => simp [hd]
  | true =>
    have : keyText d = some k' := by simpa using hd
    have hne : (keyText d == some k) = false := by
      simp only [beq_eq_false_iff_ne]
      rw [this]
      exact fun hcontra => h (Option.some_injective _ hcontra)
    simp [hd, hne]

/-! Helper lemmas about the bounded LRU seen-set. -/

theorem seenAdd_of_mem (cap : Nat) (s : List String) (c : String) (h : c ∈ s) :
    seenAdd cap s c = (false, s.erase c ++ [c]) := by
  simp [seenAdd, h]

theorem seenAdd_fst_true_iff (cap : Nat) (s : List String) (c : String) :
    (seenAdd cap s c).1 = true ↔ c ∉ s := by
  unfold seenAdd
  by_cases h : c ∈ s
  · simp [h]
  · rw [if_neg h]
    constructor
    · intro _; exact h
    · intro _
      split <;> rfl

theorem seenAdd_of_not_mem_lt (cap : Nat) (s : List String) (c : String)
    (h : c ∉ s) (hlen : s.length + 1 ≤ cap) :
    seenAdd cap s c = (true, s ++ [c]) := by
  unfold seenAdd
  rw [if_neg h, if_neg]
  simp only [List.length_append, List.length_singleton, gt_iff_lt, not_lt]
  omega

theorem seenAdd_of_not_mem_full (cap : Nat) (s : List String) (c : String)
    (h : c ∉ s) (hlen : cap < s.length + 1) :
    seenAdd cap s c = (true, (s ++ [c]).drop 1) := by
  unfold seenAdd
  rw [if_neg h, if_pos]
  simp only [List.length_append, List.length_singleton, gt_iff_lt]
  omega

theorem seenAdd_length_le (cap : Nat) (s : List String) (c : String)
    (h : s.length ≤ cap) :
    ((seenAdd cap s c).2).length ≤ cap := by
  unfold seenAdd
  by_cases hc : c ∈ s
  · rw [if_pos hc]
    have := List.length_erase_of_mem hc
    simp only [List.length_append, List.length_singleton]
    have hpos : 1 ≤ s.length := List.length_pos.mpr (List.ne_nil_of_mem hc)
    omega
  · rw [if_neg hc]
    by_cases hl : (s ++ [c]).length > cap
    · rw [if_pos hl]
      simp only [List.length_drop, List.length_append, List.length_singleton]
      omega
    · rw [if_neg hl]
      simp only [List.length_append, List.length_singleton, gt_iff_lt,
        not_lt] at hl
      simpa using hl

theorem seenAdd_mem_self (cap : Nat) (s : List String) (c : String)
    (hcap : 1 ≤ cap) :
    c ∈ (seenAdd cap s c).2 := by
  unfold seenAdd
  by_cases hc : c ∈ s
  · simp [hc]
  · rw [if_neg hc]
    by_cases hl : (s ++ [c]).length > cap
    · rw [if_pos hl]
      have hs : 1 ≤ s.length := by
        simp only [List.length_append, List.length_singleton, gt_iff_lt] at hl
        omega
      rw [List.drop_append_of_le_length hs]
      simp
    · rw [if_neg hl]
      simp

/-- Folding plain insertions of fresh distinct checksums while staying
within capacity just appends them in order. -/
theorem foldl_seenAdd_under_capacity (cap : Nat) :
    ∀ (cs pre : List String), (pre ++ cs).Nodup →
      pre.length + cs.length ≤ cap →
      cs.foldl (fun s c => (seenAdd cap s c).2) pre = pre ++ cs := by
  intro cs
  induction cs with
  | nil => intro pre _ _; simp
  | cons c rest ih =>
    intro pre hnd hlen
    have hc : c ∉ pre := by
      rcases List.nodup_append.mp hnd with ⟨-, -, hdisj⟩
      exact fun hmem => hdisj hmem (List.mem_cons_self c rest)
    have hnd' : ((pre ++ [c]) ++ rest).Nodup := by
      simpa [List.append_assoc] using hnd
    have hlen1 : pre.length + 1 ≤ cap := by
      simp only [List.length_cons] at hlen
      omega
    have hstep : (seenAdd cap pre c).2 = pre ++ [c] := by
      rw [seenAdd_of_not_mem_lt cap pre c hc hlen1]
    simp only [List.foldl_cons, hstep]
    rw [ih (pre ++ [c]) hnd' (by simp at hlen ⊢; omega)]
    simp [List.append_assoc]

/-! Evaluation lemmas for the per-item pipeline body. -/

/-- The document a successful run of the pipeline tail hands to the sink. -/
def ingestedDoc (job : JobConfig) (raw c name : String) (v : Nat)
    (lm : String) (extra : Meta) : Doc :=
  ⟨raw, mergeExtra (standardMetadata job name c v lm) extra⟩

theorem keyText_ingestedDoc (job : JobConfig) (raw c name : String) (v : Nat)
    (lm : String) (extra : Meta) :
    keyText (ingestedDoc job raw c name v lm extra) = some name := by
  unfold keyText ingestedDoc
  rw [mergeExtra_lookup_reserved extra _ "key" (by simp [RESERVED_METADATA_KEYS])]
  simp [standardMetadata, lookupKV]

theorem lookupKV_standardMetadata_version (job : JobConfig)
    (name c : String) (v : Nat) (lm : String) :
    lookupKV (standardMetadata job name c v lm) "version" =
      some (MetaVal.nat v) := by
  simp [standardMetadata, lookupKV]

theorem processItemFinish_ok (job : JobConfig) (beh : StepBehavior)
    (st : PState) (raw c name : String) (v : Nat) (extra : Meta)
    (hex : beh.extraMeta = Except.ok extra)
    (hins : beh.insertRaises = false)
    (hrec : beh.recordRaises = false) :
    processItemFinish job beh st raw c name v =
      Except.ok (1,
        { seen := st.seen,
          ledger := st.ledger ++ [⟨name, c, v, beh.lastModified⟩],
          store := st.store ++ [ingestedDoc job raw c name v beh.lastModified extra],
          events := st.events ++
            [TrackerEvent.insertDoc (ingestedDoc job raw c name v beh.lastModified extra),
             TrackerEvent.record name c v] }) := by
  unfold processItemFinish
  rw [hex]
  simp [hins, hrec, ingestedDoc]

theorem processItemBody_eval_new (job : JobConfig) (hash : String → String)
    (beh : StepBehavior) (st : PState) (raw name : String) (extra : Meta)
    (hraw : beh.rawContent = Except.ok raw)
    (hblank : isBlank raw = false)
    (hnew : hash raw ∉ st.seen)
    (hname : beh.itemName = Except.ok name)
    (hgl : beh.getLatestRaises = false)
    (hlat : getLatestRecord st.ledger name = none)
    (hex : beh.extraMeta = Except.ok extra)
    (hins : beh.insertRaises = false)
    (hrec : beh.recordRaises = false) :
    processItemBody job hash beh st =
      Except.ok (1,
        { seen := (seenAdd SEEN_CAPACITY st.seen (hash raw)).2,
          ledger := st.ledger ++ [⟨name, hash raw, 1, beh.lastModified⟩],
          store := st.store ++
            [ingestedDoc job raw (hash raw) name 1 beh.lastModified extra],
          events := st.events ++ [TrackerEvent.getLatest name,
            TrackerEvent.insertDoc
              (ingestedDoc job raw (hash raw) name 1 beh.lastModified extra),
            TrackerEvent.record name (hash raw) 1] }) := by
  have hp1 : (seenAdd SEEN_CAPACITY st.seen (hash raw)).1 = true :=
    (seenAdd_fst_true_iff _ _ _).mpr hnew
  unfold processItemBody processItemFinish
  simp only [hraw, hname, hgl, hex, hins, hrec]
  simp [hblank, hp1, hlat, ingestedDoc, List.append_assoc]

theorem processItemBody_eval_unchanged (job : JobConfig)
    (hash : String → String) (beh : StepBehavior) (st : PState)
    (raw name : String) (l : LedgerRow)
    (hraw : beh.rawContent = Except.ok raw)
    (hblank : isBlank raw = false)
    (hnew : hash raw ∉ st.seen)
    (hname : beh.itemName = Except.ok name)
    (hgl : beh.getLatestRaises = false)
    (hlat : getLatestRecord st.ledger name = some l)
    (hck : l.checksum = hash raw) :
    processItemBody job hash beh st =
      Except.ok (0,
        { seen := (seenAdd SEEN_CAPACITY st.seen (hash raw)).2,
          ledger := st.ledger,
          store := st.store,
          events := st.events ++ [TrackerEvent.getLatest name] }) := by
  have hp1 : (seenAdd SEEN_CAPACITY st.seen (hash raw)).1 = true :=
    (seenAdd_fst_true_iff _ _ _).mpr hnew
  unfold processItemBody
  simp only [hraw, hname, hgl]
  simp [hblank, hp1, hlat, hck]

theorem processItemBody_eval_changed (job : JobConfig)
    (hash : String → String) (beh : StepBehavior) (st : PState)
    (raw name : String) (l : LedgerRow) (extra : Meta)
    (hraw : beh.rawContent = Except.ok raw)
    (hblank : isBlank raw = false)
    (hnew : hash raw ∉ st.seen)
    (hname : beh.itemName = Except.ok name)
    (hgl : beh.getLatestRaises = false)
    (hlat : getLatestRecord st.ledger name = some l)
    (hck : l.checksum ≠ hash raw)
    (hdel : beh.deleteRaises = false)
    (hex : beh.extraMeta = Except.ok extra)
    (hins : beh.insertRaises = false)
    (hrec : beh.recordRaises = false) :
    processItemBody job hash beh st =
      Except.ok (1,
        { seen := (seenAdd SEEN_CAPACITY st.seen (hash raw)).2,
          ledger := st.ledger ++
            [⟨name, hash raw, l.version + 1, beh.lastModified⟩],
          store := deletePreviousEmbeddings st.store name ++
            [ingestedDoc job raw (hash raw) name (l.version + 1)
              beh.lastModified extra],
          events := st.events ++ [TrackerEvent.getLatest name,
            TrackerEvent.deletePrev name,
            TrackerEvent.insertDoc
              (ingestedDoc job raw (hash raw) name (l.version + 1)
                beh.lastModified extra),
            TrackerEvent.record name (hash raw) (l.version + 1)] }) := by
  have hp1 : (seenAdd SEEN_CAPACITY st.seen (hash raw)).1 = true :=
    (seenAdd_fst_true_iff _ _ _).mpr hnew
  have hckb : (l.checksum == hash raw) = false := by
    simpa using hck
  unfold processItemBody processItemFinish
  simp only [hraw, hname, hgl, hdel, hex, hins, hrec]
  simp [hblank, hp1, hlat, hckb, ingestedDoc, List.append_assoc]

theorem processItemBody_eval_dup (job : JobConfig) (hash : String → String)
    (beh : StepBehavior) (st : PState) (raw : String)
    (hraw : beh.rawContent = Except.ok raw)
    (hblank : isBlank raw = false)
    (hdup : hash raw ∈ st.seen) :
    processItemBody job hash beh st =
      Except.ok (0,
        { seen := st.seen.erase (hash raw) ++ [hash raw],
          ledger := st.ledger,
          store := st.store,
          events := st.events }) := by
  have hp : seenAdd SEEN_CAPACITY st.seen (hash raw) =
      (false, st.seen.erase (hash raw) ++ [hash raw]) :=
    seenAdd_of_mem _ _ _ hdup
  unfold processItemBody
  simp only [hraw]
  simp [hblank, hp]

theorem processItemBody_error_seen (job : JobConfig) (hash : String → String)
    (beh : StepBehavior) (st : PState) (raw e : String) (st' : PState)
    (hraw : beh.rawContent = Except.ok raw)
    (herr : processItemBody job hash beh st = Except.error (e, st')) :
    st'.seen = (seenAdd SEEN_CAPACITY st.seen (hash raw)).2 := by
  unfold processItemBody processItemFinish at herr
  rw [hraw] at herr
  dsimp only at herr
  repeat'
    first
    | (exact Except.noConfusion herr)
    | (split at herr)
  all_goals
    first
    | (exact Except.noConfusion herr)
    | (simp only [Except.error.injEq, Prod.mk.injEq] at herr
       rcases herr with ⟨-, herr⟩
       subst herr
       rfl)

theorem processItemBody_ok_fst (job : JobConfig) (hash : String → String)
    (beh : StepBehavior) (st : PState) (n : Nat) (st' : PState)
    (h : processItemBody job hash beh st = Except.ok (n, st')) :
    n = 0 ∨ n = 1 := by
  unfold processItemBody processItemFinish at h
  dsimp only at h
  repeat'
    first
    | (exact Except.noConfusion h)
    | (split at h)
  all_goals
    first
    | (exact Except.noConfusion h)
    | (simp only [Except.ok.injEq, Prod.mk.injEq] at h; omega)

theorem processItem_fst (job : JobConfig) (hash : String → String)
    (beh : StepBehavior) (st : PState) :
    (processItem job hash beh st).1 = 0 ∨ (processItem job hash beh st).1 = 1 := by
  unfold processItem
  cases hb : processItemBody job hash beh st with
  | ok r =>
    simpa using processItemBody_ok_fst job hash beh st r.1 r.2 (by rw [hb])
  | error p => left; rfl

/-! Lemmas about the run loop. -/

theorem runLoop_map_ok_append (job : JobConfig) (hash : String → String)
    (behs : List StepBehavior) :
    ∀ (rest : List (Except String StepBehavior)) (st : PState) (t s : Nat),
      runLoop job hash (behs.map Except.ok ++ rest) st t s =
        runLoop job hash rest (processAll job hash behs st t s).1
          (processAll job hash behs st t s).2.1
          (processAll job hash behs st t s).2.2 := by
  induction behs with
  | nil => intro rest st t s; rfl
  | cons b bs ih =>
    intro rest st t s
    simp only [List.map_cons, List.cons_append, runLoop, processAll]
    by_cases h : (processItem job hash b st).1 = 0
    · simp only [h, if_pos]
      exact ih rest _ _ _
    · simp only [h, if_neg, not_false_iff]
      exact ih rest _ _ _

theorem processItemBody_eval_deleteRaises (job : JobConfig)
    (hash : String → String) (beh : StepBehavior) (st : PState)
    (raw name : String) (l : LedgerRow)
    (hraw : beh.rawContent = Except.ok raw)
    (hblank : isBlank raw = false)
    (hnew : hash raw ∉ st.seen)
    (hname : beh.itemName = Except.ok name)
    (hgl : beh.getLatestRaises = false)
    (hlat : getLatestRecord st.ledger name = some l)
    (hck : l.checksum ≠ hash raw)
    (hdel : beh.deleteRaises = true) :
    processItemBody job hash beh st =
      Except.error ("delete_previous_embeddings",
        { seen := (seenAdd SEEN_CAPACITY st.seen (hash raw)).2,
          ledger := st.ledger,
          store := st.store,
          events := st.events ++ [TrackerEvent.getLatest name,
            TrackerEvent.deletePrev name] }) := by
  have hp1 : (seenAdd SEEN_CAPACITY st.seen (hash raw)).1 = true :=
    (seenAdd_fst_true_iff _ _ _).mpr hnew
  have hckb : (l.checksum == hash raw) = false := by simpa using hck
  unfold processItemBody
  simp only [hraw, hname, hgl, hdel]
  simp [hblank, hp1, hlat, hckb]

/-- The ledger/store invariants only read the ledger and the store. -/
theorem ledgerStoreInvariant_congr (hash : String → String)
    (st st' : PState) (hl : st'.ledger = st.ledger)
    (hs : st'.store = st.store)
    (h : ledgerStoreInvariant hash st) : ledgerStoreInvariant hash st' := by
  unfold ledgerStoreInvariant at h ⊢
  rw [hl, hs]
  exact h

theorem ledgerStoreInvariant_init (hash : String → String) :
    ledgerStoreInvariant hash initState := by
  intro k
  simp [getLatestRecord, storeDocsFor, initState]

theorem ledgerStoreInvariant_implies_claim (hash : String → String)
    (st : PState) (h : ledgerStoreInvariant hash st) :
    ledgerStoreClaimInvariant hash st := by
  intro k l hk
  have := h k
  rw [hk] at this
  exact this

theorem storeDocsFor_singleton_ingested (job : JobConfig)
    (raw c name : String) (v : Nat) (lm : String) (extra : Meta)
    (k : String) :
    storeDocsFor [ingestedDoc job raw c name v lm extra] k =
      if name = k then [ingestedDoc job raw c name v lm extra] else [] := by
  unfold storeDocsFor
  have hkt := keyText_ingestedDoc job raw c name v lm extra
  by_cases h : name = k
  · subst h
    simp [List.filter, hkt]
  · have : (keyText (ingestedDoc job raw c name v lm extra) == some k) = false := by
      rw [hkt]
      simpa using fun hc => h hc
    simp [List.filter, this, h]

/-- Preservation of the strengthened invariant by one process_item call
whose sink insert and ledger record succeed when reached. -/
theorem ledgerStoreInvariant_preserved (job : JobConfig)
    (hash : String → String) (beh : StepBehavior) (st : PState)
    (hinv : ledgerStoreInvariant hash st)
    (hcommit : sinkCommitsWhenReached beh) :
    ledgerStoreInvariant hash (processItem job hash beh st).2 := by
  obtain ⟨⟨extra, hex⟩, hins, hrec⟩ := hcommit
  cases hr : beh.rawContent with
  | error e =>
    have hbody : processItemBody job hash beh st = Except.error (e, st) := by
      unfold processItemBody
      rw [hr]
    unfold processItem
    rw [hbody]
    exact hinv
  | ok raw =>
    cases hblank : isBlank raw with
    | true =>
      have hbody : processItemBody job hash beh st = Except.ok (0, st) := by
        unfold processItemBody
        rw [hr]
        simp [hblank]
      unfold processItem
      rw [hbody]
      exact hinv
    | false =>
      by_cases hdup : hash raw ∈ st.seen
      · have hbody := processItemBody_eval_dup job hash beh st raw hr hblank hdup
        unfold processItem
        rw [hbody]
        exact ledgerStoreInvariant_congr hash st _ rfl rfl hinv
      · cases hn : beh.itemName with
        | error e =>
          have hp1 : (seenAdd SEEN_CAPACITY st.seen (hash raw)).1 = true :=
            (seenAdd_fst_true_iff _ _ _).mpr hdup
          have hbody : processItemBody job hash beh st =
              Except.error (e,
                { seen := (seenAdd SEEN_CAPACITY st.seen (hash raw)).2,
                  ledger := st.ledger, store := st.store,
                  events := st.events }) := by
            unfold processItemBody
            simp only [hr, hn]
            simp [hblank, hp1]
          unfold processItem
          rw [hbody]
          exact ledgerStoreInvariant_congr hash st _ rfl rfl hinv
        | ok name =>
          cases hgl : beh.getLatestRaises with
          | true =>
            have hp1 : (seenAdd SEEN_CAPACITY st.seen (hash raw)).1 = true :=
              (seenAdd_fst_true_iff _ _ _).mpr hdup
            have hbody : processItemBody job hash beh st =
                Except.error ("get_latest_record",
                  { seen := (seenAdd SEEN_CAPACITY st.seen (hash raw)).2,
                    ledger := st.ledger, store := st.store,
                    events := st.events ++ [TrackerEvent.getLatest name] }) := by
              unfold processItemBody
              simp only [hr, hn, hgl]
              simp [hblank, hp1]
            unfold processItem
            rw [hbody]
            exact ledgerStoreInvariant_congr hash st _ rfl rfl hinv
          | false =>
            cases hlat : getLatestRecord st.ledger name with
            | none =>
              have hbody := processItemBody_eval_new job hash beh st raw name
                extra hr hblank hdup hn hgl hlat hex hins hrec
              unfold processItem
              rw [hbody]
              intro k
              rw [getLatestRecord_append_single]
              by_cases hk : name = k
              · subst hk
                simp only [beq_self_eq_true, if_pos, hlat, betterRow]
                refine ⟨ingestedDoc job raw (hash raw) name 1
                  beh.lastModified extra, ?_, rfl⟩
                rw [storeDocsFor_append]
                have hnone := hinv name
                rw [hlat] at hnone
                rw [hnone, storeDocsFor_singleton_ingested]
                simp
              · have hbk : (name == k) = false := by simpa using hk
                rw [hbk]
                simp only [Bool.false_eq_true, if_false]
                have := hinv k
                rw [storeDocsFor_append, storeDocsFor_singleton_ingested]
                simp only [hk, if_neg, not_false_iff, List.append_nil]
                exact this
            | some l =>
              by_cases hck : l.checksum = hash raw
              · have hbody := processItemBody_eval_unchanged job hash beh st
                  raw name l hr hblank hdup hn hgl hlat hck
                unfold processItem
                rw [hbody]
                exact ledgerStoreInvariant_congr hash st _ rfl rfl hinv
              · cases hdel : beh.deleteRaises with
                | true =>
                  have hbody := processItemBody_eval_deleteRaises job hash beh
                    st raw name l hr hblank hdup hn hgl hlat hck hdel
                  unfold processItem
                  rw [hbody]
                  exact ledgerStoreInvariant_congr hash st _ rfl rfl hinv
                | false =>
                  have hbody := processItemBody_eval_changed job hash beh st
                    raw name l extra hr hblank hdup hn hgl hlat hck hdel hex
                    hins hrec
                  unfold processItem
                  rw [hbody]
                  intro k
                  rw [getLatestRecord_append_single]
                  by_cases hk : name = k
                  · subst hk
                    simp only [beq_self_eq_true, if_pos, hlat, betterRow]
                    have hgt : l.version + 1 > l.version := Nat.lt_succ_self _
                    simp only [hgt, if_pos]
                    refine ⟨ingestedDoc job raw (hash raw) name (l.version + 1)
                      beh.lastModified extra, ?_, rfl⟩
                    rw [storeDocsFor_append, storeDocsFor_delete_self,
                      storeDocsFor_singleton_ingested]
                    simp
                  · have hbk : (name == k) = false := by simpa using hk
                    rw [hbk]
                    simp only [Bool.false_eq_true, if_false]
                    have := hinv k
                    rw [storeDocsFor_append,
                      storeDocsFor_delete_ne _ _ _ (fun h => hk h.symm),
                      storeDocsFor_singleton_ingested]
                    simp only [hk, if_neg, not_false_iff, List.append_nil]
                    exact this

theorem processAll_totals (job : JobConfig) (hash : String → String)
    (behs : List StepBehavior) :
    ∀ (st : PState) (t s : Nat),
      (processAll job hash behs st t s).2.1 +
        (processAll job hash behs st t s).2.2 = t + s + behs.length := by
  induction behs with
  | nil => intro st t s; simp [processAll]
  | cons b bs ih =>
    intro st t s
    simp only [processAll]
    by_cases h : (processItem job hash b st).1 = 0
    · simp only [h, if_pos]
      rw [ih]
      simp only [List.length_cons]
      omega
    · simp only [h, if_neg, not_false_iff]
      have h1 : (processItem job hash b st).1 = 1 :=
        (processItem_fst job hash b st).resolve_left h
      rw [ih, h1]
      simp only [List.length_cons]
      omega

theorem ledgerStoreInvariant_applyItems (job : JobConfig)
    (hash : String → String) (behs : List StepBehavior) :
    ∀ st : PState, ledgerStoreInvariant hash st →
      (∀ b ∈ behs, sinkCommitsWhenReached b) →
      ledgerStoreInvariant hash (applyItems job hash behs st) := by
  induction behs with
  | nil => intro st h _; simpa [applyItems] using h
  | cons b bs ih =>
    intro st h hc
    simp only [applyItems, List.foldl_cons]
    exact ih _
      (ledgerStoreInvariant_preserved job hash b st h
        (hc b (List.mem_cons_self b bs)))
      (fun b' hb' => hc b' (List.mem_cons_of_mem b hb'))

/-! Helper lemmas for the LRU witness family. -/

theorem repChar_injective : Function.Injective repChar := by
  intro m n h
  have hlen := congrArg (fun s => s.data.length) h
  simpa [repChar] using hlen

theorem distinctChecksums_length (n : Nat) :
    (distinctChecksums n).length = n := by
  simp [distinctChecksums]

theorem distinctChecksums_nodup (n : Nat) :
    (distinctChecksums n).Nodup :=
  List.Nodup.map repChar_injective (List.nodup_range n)

theorem repChar_not_mem_distinctChecksums (n : Nat) :
    repChar n ∉ distinctChecksums n := by
  intro h
  rcases List.mem_map.mp h with ⟨k, hk, he⟩
  have hkn : k = n := repChar_injective he
  rw [List.mem_range] at hk
  omega

end Ingestion

namespace Ingestion

/-!
The claims, settled.
-/

/-- C1: for every ingestion item, process_item returns an integer in
{0, 1} and never raises: an exception thrown by any step inside the body
(content fetch, hashing, dedup, naming, version lookup, embedding
deletion, metadata build, sink insert, or ledger record) is caught and
process_item returns 0, keeping the state as mutated so far. -/
theorem claim_process_item_returns_zero_or_one_never_raises
    (job : JobConfig) (hash : String → String) (beh : StepBehavior)
    (st : PState) :
    ((processItem job hash beh st).1 = 0 ∨
      (processItem job hash beh st).1 = 1)
    ∧ (∀ (e : String) (st' : PState),
        processItemBody job hash beh st = Except.error (e, st') →
        processItem job hash beh st = (0, st')) := by
  constructor
  · exact processItem_fst job hash beh st
  · intro e st' herr
    unfold processItem
    rw [herr]

/-- Witness for C1: an item whose content fetch raises is caught and
counted as 0 with the state unchanged. -/
theorem claim_process_item_returns_zero_or_one_never_raises_witness :
    processItem cJob cHash cFetchFailBeh initState = (0, initState) :=
  (claim_process_item_returns_zero_or_one_never_raises cJob cHash
    cFetchFailBeh initState).2 "boom" initState rfl

/-- C2: for an item with non-blank content whose checksum is new to the
run-local seen-set, the version check is a three-way split on the latest
ledger record for the item's key: no prior record inserts and records at
version 1 with no deletion; an identical checksum returns 0 with no
delete, insert or record call; a different checksum deletes the previous
embeddings exactly once, then inserts and records exactly one document at
version previous + 1, and that version appears in the document's
metadata. -/
theorem claim_version_check_three_way_split
    (job : JobConfig) (hash : String → String) (beh : StepBehavior)
    (st : PState) (raw name : String) (extra : Meta)
    (hraw : beh.rawContent = Except.ok raw)
    (hblank : isBlank raw = false)
    (hnew : hash raw ∉ st.seen)
    (hname : beh.itemName = Except.ok name)
    (hgl : beh.getLatestRaises = false)
    (hdel : beh.deleteRaises = false)
    (hex : beh.extraMeta = Except.ok extra)
    (hins : beh.insertRaises = false)
    (hrec : beh.recordRaises = false) :
    (getLatestRecord st.ledger name = none →
      processItem job hash beh st =
        (1, { seen := (seenAdd SEEN_CAPACITY st.seen (hash raw)).2,
              ledger := st.ledger ++ [⟨name, hash raw, 1, beh.lastModified⟩],
              store := st.store ++
                [ingestedDoc job raw (hash raw) name 1 beh.lastModified extra],
              events := st.events ++ [TrackerEvent.getLatest name,
                TrackerEvent.insertDoc
                  (ingestedDoc job raw (hash raw) name 1 beh.lastModified extra),
                TrackerEvent.record name (hash raw) 1] }))
    ∧ (∀ l : LedgerRow, getLatestRecord st.ledger name = some l →
        l.checksum = hash raw →
        processItem job hash beh st =
          (0, { seen := (seenAdd SEEN_CAPACITY st.seen (hash raw)).2,
                ledger := st.ledger,
                store := st.store,
                events := st.events ++ [TrackerEvent.getLatest name] }))
    ∧ (∀ l : LedgerRow, getLatestRecord st.ledger name = some l →
        l.checksum ≠ hash raw →
        processItem job hash beh st =
          (1, { seen := (seenAdd SEEN_CAPACITY st.seen (hash raw)).2,
                ledger := st.ledger ++
                  [⟨name, hash raw, l.version + 1, beh.lastModified⟩],
                store := deletePreviousEmbeddings st.store name ++
                  [ingestedDoc job raw (hash raw) name (l.version + 1)
                    beh.lastModified extra],
                events := st.events ++ [TrackerEvent.getLatest name,
                  TrackerEvent.deletePrev name,
                  TrackerEvent.insertDoc
                    (ingestedDoc job raw (hash raw) name (l.version + 1)
                      beh.lastModified extra),
                  TrackerEvent.record name (hash raw) (l.version + 1)] })
        ∧ lookupKV (ingestedDoc job raw (hash raw) name (l.version + 1)
            beh.lastModified extra).metadata "version" =
            some (MetaVal.nat (l.version + 1))) := by
  refine ⟨?_, ?_, ?_⟩
  · intro hlat
    unfold processItem
    rw [processItemBody_eval_new job hash beh st raw name extra hraw hblank
      hnew hname hgl hlat hex hins hrec]
  · intro l hlat hck
    unfold processItem
    rw [processItemBody_eval_unchanged job hash beh st raw name l hraw hblank
      hnew hname hgl hlat hck]
  · intro l hlat hck
    constructor
    · unfold processItem
      rw [processItemBody_eval_changed job hash beh st raw name l extra hraw
        hblank hnew hname hgl hlat hck hdel hex hins hrec]
    · unfold ingestedDoc
      rw [mergeExtra_lookup_reserved extra _ "version"
        (by simp [RESERVED_METADATA_KEYS])]
      exact lookupKV_standardMetadata_version job name (hash raw)
        (l.version + 1) beh.lastModified

/-- Witness for C2: updating key k from checksum old at version 2 to new
content ingests exactly one document at version 3 after one delete, and
version 3 appears in the document metadata. -/
theorem claim_version_check_three_way_split_witness :
    (processItem cJob cHash c2Beh c2St).1 = 1
    ∧ (processItem cJob cHash c2Beh c2St).2.ledger =
        [⟨"k", "old", 2, "t0"⟩, ⟨"k", "new", 3, "t1"⟩]
    ∧ ((processItem cJob cHash c2Beh c2St).2.events.count
        (TrackerEvent.deletePrev "k")) = 1
    ∧ lookupKV (ingestedDoc cJob "new" "new" "k" 3 "t1"
        [("url", MetaVal.str "http")]).metadata "version" =
        some (MetaVal.nat 3) := by
  have h := (claim_version_check_three_way_split cJob cHash c2Beh c2St
    "new" "k" [("url", MetaVal.str "http")] rfl (by decide) (by decide)
    rfl rfl rfl rfl rfl rfl).2.2 ⟨"k", "old", 2, "t0"⟩ (by decide)
    (by decide)
  refine ⟨?_, ?_, ?_, h.2⟩
  · rw [h.1]
  · rw [h.1]; decide
  · rw [h.1]; decide

/-- C3 counterexample: the claimed ledger/store invariant does not hold
after every process_item call. Ingest the text x under key k, then update
it to y with a sink insert that raises: the previous embeddings are
already deleted when the insert fails, so the ledger's latest row for k
(checksum of x, version 1) no longer matches anything in the store. -/
theorem claim_store_ledger_sync_counterexample :
    ¬ ledgerStoreClaimInvariant cHash c3FailState := by
  intro h
  obtain ⟨d, hd, -⟩ := h "k" ⟨"k", "x", 1, "t0"⟩ (by decide)
  have hempty : storeDocsFor c3FailState.store "k" = [] := by decide
  rw [hempty] at hd
  exact List.noConfusion hd

/-- C3 amended: the invariant holds at every point between operations
provided each call's metadata hook, sink insert and ledger record succeed
when reached (content fetch, naming and the version lookup may still
raise): for every key with a ledger row, the store holds exactly the
latest version's content and earlier versions are deleted. -/
theorem claim_store_ledger_sync_when_sink_commits
    (job : JobConfig) (hash : String → String) (behs : List StepBehavior)
    (hcommit : ∀ b ∈ behs, sinkCommitsWhenReached b) :
    ledgerStoreClaimInvariant hash (applyItems job hash behs initState) :=
  ledgerStoreInvariant_implies_claim hash _
    (ledgerStoreInvariant_applyItems job hash behs initState
      (ledgerStoreInvariant_init hash) hcommit)

/-- Witness for the amended C3: after ingesting x under key k and hello
under key k1 with a committing sink, the invariant holds. -/
theorem claim_store_ledger_sync_when_sink_commits_witness :
    ledgerStoreClaimInvariant cHash
      (applyItems cJob cHash [c3BehA, cOkBeh] initState) :=
  claim_store_ledger_sync_when_sink_commits cJob cHash [c3BehA, cOkBeh]
    (by
      intro b hb
      rcases List.mem_cons.mp hb with h | h
      · subst h; exact ⟨⟨[], rfl⟩, rfl, rfl⟩
      · rcases List.mem_cons.mp h with h' | h'
        · subst h'; exact ⟨⟨[], rfl⟩, rfl, rfl⟩
        · exact absurd h' (List.not_mem_nil b))

/-- C4 counterexample: the claim that a name containing a path separator
never produces the same key as the otherwise-identical name with a
literal underscore is false: both sanitizers map a/b and a_b to the very
same key a_b, because the first substitution collapses spaces,
backslashes and slashes to an underscore. -/
theorem claim_item_name_separator_collision_counterexample :
    sanitize_s3_key "a/b" = sanitize_s3_key "a_b"
    ∧ sanitize_path "a/b" = sanitize_path "a_b" := by
  constructor <;> decide

/-- C4 amended: the item-name sanitizers are pure deterministic functions
of the input (they are functions of the string alone), but they are not
collision-avoiding across structurally different inputs: a path separator
collapses to the same string as a literal underscore, so a/b and a_b
share the key a_b. The repository's own test vector for the sanitizer is
also reproduced. -/
theorem claim_item_name_collapses_separator_to_underscore :
    sanitize_s3_key "a/b" = "a_b"
    ∧ sanitize_s3_key "a_b" = "a_b"
    ∧ sanitize_path "a/b" = "a_b"
    ∧ sanitize_path "a_b" = "a_b"
    ∧ sanitize_s3_key "Angstrom / space\\test?.txt" =
        "Angstrom_space_test.txt" := by
  refine ⟨?_, ?_, ?_, ?_, ?_⟩ <;> decide

/-- C5: for every connector-supplied extra-metadata map with distinct
keys (a Python dict) and every reserved key, the merged document metadata
holds the value set by process_item and never the connector-supplied
value; colliding extra keys are silently dropped (the merge is a total
function, it cannot raise) while non-colliding extra keys are preserved. -/
theorem claim_reserved_keys_protected
    (job : JobConfig) (name c : String) (v : Nat) (lm : String)
    (extra : Meta) (hnodup : (extra.map Prod.fst).Nodup) :
    (∀ k, k ∈ RESERVED_METADATA_KEYS →
      lookupKV (mergeExtra (standardMetadata job name c v lm) extra) k =
        lookupKV (standardMetadata job name c v lm) k)
    ∧ (∀ (k : String) (val : MetaVal), (k, val) ∈ extra →
        k ∉ RESERVED_METADATA_KEYS →
        lookupKV (mergeExtra (standardMetadata job name c v lm) extra) k =
          some val) := by
  constructor
  · intro k hk
    exact mergeExtra_lookup_reserved extra _ k hk
  · intro k val hmem hk
    exact mergeExtra_lookup_mem extra _ k val hnodup hmem hk

/-- Witness for C5: an extra map trying to overwrite source keeps the
job's source type, while the non-colliding url key survives the merge. -/
theorem claim_reserved_keys_protected_witness :
    lookupKV (mergeExtra (standardMetadata cJob "k" "c" 1 "t")
        [("url", MetaVal.str "u"), ("source", MetaVal.str "evil")]) "source" =
      some (MetaVal.str "s3")
    ∧ lookupKV (mergeExtra (standardMetadata cJob "k" "c" 1 "t")
        [("url", MetaVal.str "u"), ("source", MetaVal.str "evil")]) "url" =
      some (MetaVal.str "u") := by
  have h := claim_reserved_keys_protected cJob "k" "c" 1 "t"
    [("url", MetaVal.str "u"), ("source", MetaVal.str "evil")] (by decide)
  exact ⟨(h.1 "source" (by decide)).trans (by decide),
    h.2 "url" (MetaVal.str "u") (by decide) (by decide)⟩

/-- C6: the seen-set behaves as a bounded LRU of capacity 10000: Add
returns true iff the checksum was absent; if present it returns false and
refreshes recency by moving the entry to the most-recent end; after any
call on a within-capacity set the set holds at most 10000 entries; and
after inserting capacity-many distinct checksums followed by one more
distinct checksum, the least-recently-touched checksum is evicted so Add
on it returns true again. -/
theorem claim_seen_set_bounded_lru :
    (∀ (s : List String) (c : String),
      (seenAdd SEEN_CAPACITY s c).1 = true ↔ c ∉ s)
    ∧ (∀ (s : List String) (c : String), c ∈ s →
        seenAdd SEEN_CAPACITY s c = (false, s.erase c ++ [c]))
    ∧ (∀ (s : List String) (c : String), s.length ≤ SEEN_CAPACITY →
        ((seenAdd SEEN_CAPACITY s c).2).length ≤ SEEN_CAPACITY)
    ∧ (∀ (cs : List String) (c' : String), cs.Nodup →
        cs.length = SEEN_CAPACITY → c' ∉ cs →
        (seenAdd SEEN_CAPACITY
          ((seenAdd SEEN_CAPACITY
            (cs.foldl (fun s c => (seenAdd SEEN_CAPACITY s c).2) []) c').2)
          cs.headI).1 = true) := by
  refine ⟨?_, ?_, ?_, ?_⟩
  · intro s c
    exact seenAdd_fst_true_iff SEEN_CAPACITY s c
  · intro s c h
    exact seenAdd_of_mem SEEN_CAPACITY s c h
  · intro s c h
    exact seenAdd_length_le SEEN_CAPACITY s c h
  · intro cs c' hnd hlen hc'
    have hfill : cs.foldl (fun s c => (seenAdd SEEN_CAPACITY s c).2) [] = cs := by
      have := foldl_seenAdd_under_capacity SEEN_CAPACITY cs []
        (by simpa using hnd) (by simp [hlen])
      simpa using this
    rw [hfill]
    have hover : seenAdd SEEN_CAPACITY cs c' = (true, (cs ++ [c']).drop 1) :=
      seenAdd_of_not_mem_full SEEN_CAPACITY cs c' hc' (by omega)
    rw [hover]
    cases cs with
    | nil => simp [SEEN_CAPACITY] at hlen
    | cons h0 t =>
      have hlen1 : 1 ≤ (h0 :: t).length := by simp
      rw [List.drop_append_of_le_length hlen1]
      simp only [List.headI, List.drop_succ_cons, List.drop_zero]
      rw [seenAdd_fst_true_iff]
      intro hmem
      rcases List.mem_append.mp hmem with hmem | hmem
      · exact (List.nodup_cons.mp hnd).1 hmem
      · rw [List.mem_singleton] at hmem
        exact hc' (hmem ▸ List.mem_cons_self h0 t)

/-- Witness for C6: fill the seen-set with 10000 distinct checksums, add
one more, and the first checksum has been evicted: Add on it returns true
again. -/
theorem claim_seen_set_bounded_lru_witness :
    (seenAdd SEEN_CAPACITY
      ((seenAdd SEEN_CAPACITY
        ((distinctChecksums 10000).foldl
          (fun s c => (seenAdd SEEN_CAPACITY s c).2) []) (repChar 10000)).2)
      (distinctChecksums 10000).headI).1 = true :=
  claim_seen_set_bounded_lru.2.2.2 (distinctChecksums 10000) (repChar 10000)
    (distinctChecksums_nodup 10000) (distinctChecksums_length 10000)
    (repChar_not_mem_distinctChecksums 10000)

/-- C7: run never raises: if the discovery sequence raises after some
yielded items, the run stops at that point, does not touch the remaining
pulls, and returns the failure message carrying the error and the partial
ingested and skipped totals accumulated so far; a sequence that completes
yields the summary with the final totals. -/
theorem claim_run_never_raises_partial_totals
    (job : JobConfig) (hash : String → String) (behs : List StepBehavior)
    (st : PState) :
    (runJob job hash (behs.map Except.ok) st =
      (successMsg job (processAll job hash behs st 0 0).2.1
        (processAll job hash behs st 0 0).2.2,
       (processAll job hash behs st 0 0).1))
    ∧ (∀ (e : String) (rest : List (Except String StepBehavior)),
        runJob job hash (behs.map Except.ok ++ Except.error e :: rest) st =
          (failMsg job e (processAll job hash behs st 0 0).2.1
            (processAll job hash behs st 0 0).2.2,
           (processAll job hash behs st 0 0).1)) := by
  constructor
  · have h := runLoop_map_ok_append job hash behs [] st 0 0
    rw [List.append_nil] at h
    unfold runJob
    rw [h]
    rfl
  · intro e rest
    unfold runJob
    rw [runLoop_map_ok_append job hash behs (Except.error e :: rest) st 0 0]
    rfl

/-- Witness for C7: one successful item followed by a discovery failure
reports the partial totals 1 ingested, 0 skipped together with the error,
and stops before the remaining pull. -/
theorem claim_run_never_raises_partial_totals_witness :
    runJob cJob cHash [Except.ok cOkBeh, Except.error "enumeration failed",
        Except.ok c3BehA] initState =
      ("[docs] Job failed: enumeration failed. Partial results: 1 ingested, 0 skipped",
       (processAll cJob cHash [cOkBeh] initState 0 0).1) := by
  have h := (claim_run_never_raises_partial_totals cJob cHash [cOkBeh]
    initState).2 "enumeration failed" [Except.ok c3BehA]
  exact h.trans (by decide)

/-- C8: for every finite item sequence in which discovery itself does not
raise, the run calls process_item on every item, the totals satisfy
ingested + skipped = N, and an item whose content fetch raises is counted
as a skip (process_item returns 0 on it). -/
theorem claim_run_processes_all_items_totals
    (job : JobConfig) (hash : String → String) (behs : List StepBehavior)
    (st : PState) :
    ((processAll job hash behs st 0 0).2.1 +
        (processAll job hash behs st 0 0).2.2 = behs.length)
    ∧ (runJob job hash (behs.map Except.ok) st =
        (successMsg job (processAll job hash behs st 0 0).2.1
          (processAll job hash behs st 0 0).2.2,
         (processAll job hash behs st 0 0).1))
    ∧ (∀ (beh : StepBehavior) (st0 : PState) (e : String),
        beh.rawContent = Except.error e →
        processItem job hash beh st0 = (0, st0)) := by
  refine ⟨?_, ?_, ?_⟩
  · have h := processAll_totals job hash behs st 0 0
    simpa using h
  · have h := runLoop_map_ok_append job hash behs [] st 0 0
    rw [List.append_nil] at h
    unfold runJob
    rw [h]
    rfl
  · intro beh st0 e herr
    unfold processItem processItemBody
    rw [herr]

/-- Witness for C8: a three-item sequence whose middle item's fetch
raises still processes all three and reports 2 ingested, 1 skipped. -/
theorem claim_run_processes_all_items_totals_witness :
    (processAll cJob cHash [cOkBeh, cFetchFailBeh, c3BehA] initState 0 0).2.1 +
      (processAll cJob cHash [cOkBeh, cFetchFailBeh, c3BehA] initState 0 0).2.2 = 3
    ∧ (processAll cJob cHash [cOkBeh, cFetchFailBeh, c3BehA]
        initState 0 0).2.1 = 2
    ∧ processItem cJob cHash cFetchFailBeh initState = (0, initState) := by
  have h := claim_run_processes_all_items_totals cJob cHash
    [cOkBeh, cFetchFailBeh, c3BehA] initState
  exact ⟨h.1, by decide, h.2.2 cFetchFailBeh initState "boom" rfl⟩

/-- C9, evaluated at the failing configuration: IngestionItem has no url
field (only id, source_ref, last_modified and a _metadata_cache dict),
and the pipeline never merges a url into the document metadata for the
MediaWiki connector: process_item builds the final metadata from
standardMetadata plus get_extra_metadata, MediaWikiIngestionJob does not
override get_extra_metadata (its url handling lives in
get_document_metadata, a method process_item never calls and whose
super() call does not even exist on the base class), so the effective
extra metadata is the base default empty dict and the ingested document's
metadata holds no url key. -/
theorem claim_url_merged_into_metadata_failing_eval
    (job : JobConfig) (hash : String → String) (beh : StepBehavior)
    (st : PState) (raw name : String)
    (hraw : beh.rawContent = Except.ok raw)
    (hblank : isBlank raw = false)
    (hnew : hash raw ∉ st.seen)
    (hname : beh.itemName = Except.ok name)
    (hgl : beh.getLatestRaises = false)
    (hlat : getLatestRecord st.ledger name = none)
    (hex : beh.extraMeta = Except.ok [])
    (hins : beh.insertRaises = false)
    (hrec : beh.recordRaises = false) :
    processItem job hash beh st =
      (1, { seen := (seenAdd SEEN_CAPACITY st.seen (hash raw)).2,
            ledger := st.ledger ++ [⟨name, hash raw, 1, beh.lastModified⟩],
            store := st.store ++
              [ingestedDoc job raw (hash raw) name 1 beh.lastModified []],
            events := st.events ++ [TrackerEvent.getLatest name,
              TrackerEvent.insertDoc
                (ingestedDoc job raw (hash raw) name 1 beh.lastModified []),
              TrackerEvent.record name (hash raw) 1] })
    ∧ lookupKV (ingestedDoc job raw (hash raw) name 1
        beh.lastModified []).metadata "url" = none := by
  constructor
  · unfold processItem
    rw [processItemBody_eval_new job hash beh st raw name [] hraw hblank
      hnew hname hgl hlat hex hins hrec]
  · unfold ingestedDoc mergeExtra
    simp [standardMetadata, lookupKV]

/-- Witness for the C9 evaluation: a MediaWiki-like item (base default
empty extra metadata) is ingested with no url key in its metadata. -/
theorem claim_url_merged_into_metadata_failing_eval_witness :
    (processItem cJob cHash c9Beh initState).1 = 1
    ∧ lookupKV (ingestedDoc cJob "page text" "page text" "Test_Page" 1 "t1"
        []).metadata "url" = none := by
  have h := claim_url_merged_into_metadata_failing_eval cJob cHash c9Beh
    initState "page text" "Test_Page" rfl (by decide) (by decide) rfl rfl
    (by decide) rfl rfl rfl
  exact ⟨by rw [h.1], h.2⟩

/-- C10: if process_item fails with an exception after the run-local
dedup step has inserted the item's checksum into the seen-set, the
checksum stays in the seen-set (the except clause does not remove it);
consequently a later item of the same run with byte-identical content
returns 0 at the dedup step, leaving the ledger, the store and the
tracker/sink call trace untouched, even though the content was never
successfully indexed. -/
theorem claim_failed_item_checksum_poisons_dedup
    (job : JobConfig) (hash : String → String) (beh : StepBehavior)
    (st : PState) (raw : String)
    (hraw : beh.rawContent = Except.ok raw)
    (hnew : hash raw ∉ st.seen) :
    (∀ (e : String) (st1 : PState),
      processItemBody job hash beh st = Except.error (e, st1) →
      hash raw ∈ st1.seen ∧ processItem job hash beh st = (0, st1))
    ∧ (∀ (beh' : StepBehavior) (st' : PState),
        beh'.rawContent = Except.ok raw →
        isBlank raw = false →
        hash raw ∈ st'.seen →
        processItem job hash beh' st' =
          (0, { seen := st'.seen.erase (hash raw) ++ [hash raw],
                ledger := st'.ledger,
                store := st'.store,
                events := st'.events })) := by
  constructor
  · intro e st1 herr
    constructor
    · have hseen := processItemBody_error_seen job hash beh st raw e st1
        hraw herr
      rw [hseen]
      exact seenAdd_mem_self SEEN_CAPACITY st.seen (hash raw) (by decide)
    · unfold processItem
      rw [herr]
  · intro beh' st' hraw' hblank hmem
    unfold processItem
    rw [processItemBody_eval_dup job hash beh' st' raw hraw' hblank hmem]

/-- Witness for C10: a first item whose sink insert raises records its
checksum in the seen-set; the later byte-identical item under another key
is skipped at the dedup step with ledger, store and call trace unchanged. -/
theorem claim_failed_item_checksum_poisons_dedup_witness :
    processItem cJob cHash c10BehLater
        (processItem cJob cHash c10Beh initState).2 =
      (0, { seen :=
              ((processItem cJob cHash c10Beh initState).2).seen.erase
                (cHash "shared content") ++ [cHash "shared content"],
            ledger := ((processItem cJob cHash c10Beh initState).2).ledger,
            store := ((processItem cJob cHash c10Beh initState).2).store,
            events := ((processItem cJob cHash c10Beh initState).2).events }) :=
  (claim_failed_item_checksum_poisons_dedup cJob cHash c10Beh initState
    "shared content" rfl (by decide)).2 c10BehLater
    (processItem cJob cHash c10Beh initState).2 rfl (by decide) (by decide)

end Ingestion
